import Mathlib

/-!
Verification of the queue implementation in `queue.c` (lab0-c): an intrusive
circular doubly-linked list of heap-allocated string elements.

Modelling conventions:
* A C string is a NUL-terminated byte sequence; we model it as `List ℕ+`
  (the bytes strictly between 0 and the terminator), and `strcmp` is
  translated literally from its byte-by-byte comparison semantics.
* An element node (`element_t`) is modelled as `Elem`: a node identity
  (standing for the node's address) together with its owned string value.
* A ready queue is the sequence of its elements from head to tail, modelled
  as `List Elem`; the queue handle (`struct list_head *`) is
  `Option (List Elem)` with `none` standing for a NULL handle.
* `malloc`/`strdup` success is an explicit boolean oracle argument.
* For the pointer-level claims (circular doubly-linked invariant), node
  addresses are `Nat`, pointers are `Option Nat` (`none` = NULL), and the
  physical `next`/`prev` maps rebuilt by `q_sort`'s relink loop are
  constructed literally from the code.
-/

set_option linter.unusedVariables false

/-- A C string: the sequence of (necessarily nonzero) bytes before the NUL
terminator. -/
abbrev CStr := List ℕ+

/-- Byte-by-byte `strcmp` from `<string.h>`: compare bytes until they differ
or a terminator is reached; the sign of the result is the sign of the first
differing byte pair (the NUL terminator counts as byte 0). -/
def strcmp : CStr → CStr → Int
  | [], [] => 0
  | [], b :: _ => -((b : ℕ) : Int)
  | a :: _, [] => ((a : ℕ) : Int)
  | a :: s, b :: t => if a = b then strcmp s t else ((a : ℕ) : Int) - ((b : ℕ) : Int)

theorem strcmp_self : ∀ s : CStr, strcmp s s = 0
  | [] => rfl
  | a :: s => by rw [strcmp, if_pos rfl, strcmp_self s]

theorem strcmp_swap : ∀ s t : CStr, strcmp t s = -strcmp s t
  | [], [] => rfl
  | [], b :: t => by rw [strcmp, strcmp]; ring
  | a :: s, [] => by rw [strcmp, strcmp]
  | a :: s, b :: t => by
    rcases eq_or_ne a b with h | h
    · subst h
      rw [strcmp, if_pos rfl, strcmp, if_pos rfl, strcmp_swap s t]
    · rw [strcmp, if_neg (Ne.symm h), strcmp, if_neg h]
      ring

theorem strcmp_eq_zero_iff : ∀ s t : CStr, strcmp s t = 0 ↔ s = t
  | [], [] => by constructor <;> intro h <;> rfl
  | [], b :: t => by
    have hb : 0 < (b : ℕ) := b.2
    rw [strcmp]
    constructor
    · intro h; exfalso; omega
    · intro h; exact absurd h (by simp)
  | a :: s, [] => by
    have ha : 0 < (a : ℕ) := a.2
    rw [strcmp]
    constructor
    · intro h; exfalso; omega
    · intro h; exact absurd h (by simp)
  | a :: s, b :: t => by
    rcases eq_or_ne a b with h | h
    · subst h
      rw [strcmp, if_pos rfl]
      rw [strcmp_eq_zero_iff s t]
      simp
    · have hne : (a : ℕ) ≠ (b : ℕ) := fun hc => h (PNat.coe_injective hc)
      rw [strcmp, if_neg h]
      constructor
      · intro hc; exfalso; omega
      · intro hc
        exact absurd hc (by simp [h])

theorem strcmp_le_trans :
    ∀ s t u : CStr, strcmp s t ≤ 0 → strcmp t u ≤ 0 → strcmp s u ≤ 0
  | [], t, [], _, _ => by rw [strcmp]
  | [], t, c :: u, _, _ => by
    rw [strcmp]
    have : 0 < (c : ℕ) := c.2
    omega
  | a :: s, [], u, h1, h2 => by
    exfalso
    rw [strcmp] at h1
    have : 0 < (a : ℕ) := a.2
    omega
  | a :: s, b :: t, [], h1, h2 => by
    exfalso
    rw [strcmp] at h2
    have : 0 < (b : ℕ) := b.2
    omega
  | a :: s, b :: t, c :: u, h1, h2 => by
    rcases eq_or_ne a b with hab | hab
    · subst hab
      rw [strcmp, if_pos rfl] at h1
      rcases eq_or_ne a c with hac | hac
      · subst hac
        rw [strcmp, if_pos rfl] at h2 ⊢
        exact strcmp_le_trans s t u h1 h2
      · rw [strcmp, if_neg hac] at h2 ⊢
        exact h2
    · rw [strcmp, if_neg hab] at h1
      rcases eq_or_ne b c with hbc | hbc
      · subst hbc
        rw [strcmp, if_neg hab]
        exact h1
      · rw [strcmp, if_neg hbc] at h2
        have hab' : (a : ℕ) ≠ (b : ℕ) := fun hc => hab (PNat.coe_injective hc)
        have hbc' : (b : ℕ) ≠ (c : ℕ) := fun hc => hbc (PNat.coe_injective hc)
        have hac' : (a : ℕ) < (c : ℕ) := by omega
        have hac : a ≠ c := fun hc => by
          rw [hc] at hac'; omega
        rw [strcmp, if_neg hac]
        omega

theorem strcmp_lt_of_le_of_ne {s t : CStr} (h : strcmp s t ≤ 0) (hne : s ≠ t) :
    strcmp s t < 0 := by
  rcases lt_or_eq_of_le h with h' | h'
  · exact h'
  · exact absurd ((strcmp_eq_zero_iff s t).1 h') hne

theorem strcmp_lt_le_trans {s t u : CStr}
    (h1 : strcmp s t < 0) (h2 : strcmp t u ≤ 0) : strcmp s u < 0 := by
  have hle : strcmp s u ≤ 0 := strcmp_le_trans s t u (le_of_lt h1) h2
  rcases eq_or_ne s u with h | h
  · subst h
    have := strcmp_swap s t
    omega
  · exact strcmp_lt_of_le_of_ne hle h

/-- An element node (`element_t`): a node identity (its address) and the
owned string payload. -/
structure Elem where
  id : Nat
  value : CStr
  deriving DecidableEq, Repr

/-- Non-decreasing string order on elements, as used by the sort:
`strcmp a b <= 0`. -/
def sle (a b : Elem) : Prop := strcmp a.value b.value ≤ 0

/-- Strict string order on elements: `strcmp a b < 0`. -/
def slt (a b : Elem) : Prop := strcmp a.value b.value < 0

instance : DecidableRel sle := fun a b => by unfold sle; infer_instance

instance : DecidableRel slt := fun a b => by unfold slt; infer_instance

theorem sle_trans {a b c : Elem} (h1 : sle a b) (h2 : sle b c) : sle a c :=
  strcmp_le_trans _ _ _ h1 h2

theorem sle_total (a b : Elem) : sle a b ∨ sle b a := by
  unfold sle
  have := strcmp_swap a.value b.value
  omega

/-- `mergeTwoLists` from `queue.c`: merge two NUL-terminated singly-linked
chains, repeatedly taking the head of `l1` when
`strcmp(l1->value, l2->value) < 0` and the head of `l2` otherwise (so on a
tie the element of `l2` is taken), then splicing on whichever chain
remains (`*ptr = l1 | l2`). -/
def mergeTwoLists : List Elem → List Elem → List Elem
  | [], l2 => l2
  | a :: s, [] => a :: s
  | a :: s, b :: t =>
    if strcmp a.value b.value < 0 then a :: mergeTwoLists s (b :: t)
    else b :: mergeTwoLists (a :: s) t

/-- The fast/slow split loop of `mergesort` in `queue.c`: `fast` starts at
the chain head and advances two links per step while it and its successor
are non-NULL; the accumulator counts the steps of `slow`, so the result is
the index of `slow` when the loop exits.  The argument list is the chain
still ahead of `fast`. -/
def splitCount : List Elem → Nat → Nat
  | [], k => k
  | [_], k => k
  | _ :: _ :: rest, k => splitCount rest (k + 1)

theorem splitCount_eq : ∀ (l : List Elem) (k : Nat), splitCount l k = k + l.length / 2
  | [], k => by simp [splitCount]
  | [a], k => by simp [splitCount]
  | a :: b :: rest, k => by
    rw [splitCount, splitCount_eq rest (k + 1)]
    simp only [List.length_cons]
    omega

/-- `mergesort` from `queue.c`: on a chain of two or more nodes, find the
midpoint with the fast/slow loop, cut the chain there
(`slow->prev->next = NULL`; during the split phase each node's stale `prev`
pointer is still its in-chain predecessor, so the cut happens exactly
before the node at index `splitCount l 0`), recurse on both halves and
merge. -/
def mergesortL : List Elem → List Elem
  | [] => []
  | [a] => [a]
  | a :: b :: rest =>
    mergeTwoLists
      (mergesortL ((a :: b :: rest).take (splitCount (a :: b :: rest) 0)))
      (mergesortL ((a :: b :: rest).drop (splitCount (a :: b :: rest) 0)))
termination_by l => l.length
decreasing_by
  all_goals
    simp only [List.length_take, List.length_drop, splitCount_eq, List.length_cons]
    omega

/-- The body of `q_sort` on a ready queue: no effect on an empty or
singular queue, otherwise break circularity and run `mergesort` on the
chain of elements. -/
def q_sortL (l : List Elem) : List Elem :=
  if l.length ≤ 1 then l else mergesortL l

/-- `q_sort` from `queue.c` on a queue handle (`none` = NULL handle). -/
def q_sort : Option (List Elem) → Option (List Elem)
  | none => none
  | some l => some (q_sortL l)

theorem mergeTwoLists_perm : ∀ l1 l2 : List Elem, List.Perm (mergeTwoLists l1 l2) (l1 ++ l2)
  | [], l2 => by simp [mergeTwoLists]
  | a :: s, [] => by simp [mergeTwoLists]
  | a :: s, b :: t => by
    rw [mergeTwoLists]
    split
    · exact (mergeTwoLists_perm s (b :: t)).cons a
    · exact ((mergeTwoLists_perm (a :: s) t).cons b).trans List.perm_middle.symm
termination_by l1 l2 => l1.length + l2.length

theorem mergeTwoLists_sorted :
    ∀ l1 l2 : List Elem, l1.Sorted sle → l2.Sorted sle →
      (mergeTwoLists l1 l2).Sorted sle
  | [], l2, _, h2 => by simpa [mergeTwoLists] using h2
  | a :: s, [], h1, _ => by simpa [mergeTwoLists] using h1
  | a :: s, b :: t, h1, h2 => by
    rw [mergeTwoLists]
    rw [List.sorted_cons] at h1 h2
    split
    · rename_i hab
      rw [List.sorted_cons]
      refine ⟨?_, mergeTwoLists_sorted s (b :: t) h1.2 (List.sorted_cons.2 h2)⟩
      intro x hx
      have hx' := (mergeTwoLists_perm s (b :: t)).mem_iff.1 hx
      rcases List.mem_append.1 hx' with h | h
      · exact h1.1 x h
      · rcases List.mem_cons.1 h with h | h
        · subst h; exact le_of_lt hab
        · exact sle_trans (le_of_lt hab) (h2.1 x h)
    · rename_i hab
      have hba : sle b a := by
        unfold sle
        have := strcmp_swap a.value b.value
        omega
      rw [List.sorted_cons]
      refine ⟨?_, mergeTwoLists_sorted (a :: s) t (List.sorted_cons.2 h1) h2.2⟩
      intro x hx
      have hx' := (mergeTwoLists_perm (a :: s) t).mem_iff.1 hx
      rcases List.mem_append.1 hx' with h | h
      · rcases List.mem_cons.1 h with h | h
        · subst h; exact hba
        · exact sle_trans hba (h1.1 x h)
      · exact h2.1 x h
termination_by l1 l2 => l1.length + l2.length

theorem mergesortL_perm : ∀ l : List Elem, List.Perm (mergesortL l) l
  | [] => by rw [mergesortL]
  | [a] => by rw [mergesortL]
  | a :: b :: rest => by
    rw [mergesortL]
    refine (mergeTwoLists_perm _ _).trans ?_
    refine (((mergesortL_perm _).append (mergesortL_perm _)).trans ?_)
    rw [List.take_append_drop]
termination_by l => l.length
decreasing_by
  all_goals
    simp only [List.length_take, List.length_drop, splitCount_eq, List.length_cons]
    omega

theorem mergesortL_sorted : ∀ l : List Elem, (mergesortL l).Sorted sle
  | [] => by rw [mergesortL]; simp
  | [a] => by rw [mergesortL]; simp
  | a :: b :: rest => by
    rw [mergesortL]
    exact mergeTwoLists_sorted _ _ (mergesortL_sorted _) (mergesortL_sorted _)
termination_by l => l.length
decreasing_by
  all_goals
    simp only [List.length_take, List.length_drop, splitCount_eq, List.length_cons]
    omega

theorem q_sortL_perm (l : List Elem) : List.Perm (q_sortL l) l := by
  unfold q_sortL
  split
  · rfl
  · exact mergesortL_perm l

theorem q_sortL_sorted (l : List Elem) : (q_sortL l).Sorted sle := by
  unfold q_sortL
  split
  · rename_i h
    match l, h with
    | [], _ => simp
    | [a], _ => simp
  · exact mergesortL_sorted l

/-- `q_insert_head` from `queue.c`.  `allocNode` and `allocStr` are oracles
for the outcomes of `malloc(sizeof(element_t))` and `strdup(s)`; `nid` is
the address of the node `malloc` would return.  The result is the queue
state after the call together with the returned boolean. -/
def q_insert_head (q : Option (List Elem)) (allocNode allocStr : Bool)
    (nid : Nat) (s : CStr) : Option (List Elem) × Bool :=
  match q with
  | none => (none, false)
  | some l =>
    if !allocNode then (some l, false)
    else if !allocStr then (some l, false)
    else (some (⟨nid, s⟩ :: l), true)

/-- `q_insert_tail` from `queue.c`, with the same allocation oracles. -/
def q_insert_tail (q : Option (List Elem)) (allocNode allocStr : Bool)
    (nid : Nat) (s : CStr) : Option (List Elem) × Bool :=
  match q with
  | none => (none, false)
  | some l =>
    if !allocNode then (some l, false)
    else if !allocStr then (some l, false)
    else (some (l ++ [⟨nid, s⟩]), true)

/-- `bufsize - 1` computed in `size_t` (64-bit unsigned) arithmetic: for
`bufsize = 0` it wraps around to `2^64 - 1`. -/
def sizeSub1 (bufsize : Nat) : Nat := (bufsize + (2 ^ 64 - 1)) % 2 ^ 64

/-- The byte `strncpy` stores at offset `i` when copying from `v`: the
source byte while the source lasts, then NUL padding. -/
def strncpyByte (v : CStr) (i : Nat) : Nat :=
  match v.get? i with
  | some b => (b : ℕ)
  | none => 0

/-- The sequence of `(offset, byte)` stores performed by
`strncpy(sp, v, n)`: exactly `n` bytes are written at offsets
`0 .. n - 1` (source bytes, then NUL padding). -/
def strncpyWrites (v : CStr) (n : Nat) : List (Nat × Nat) :=
  (List.range n).map (fun i => (i, strncpyByte v i))

/-- Result of a successful `q_remove_head` / `q_remove_tail`: the unlinked
element (ownership passes to the caller), the remaining queue, and the
`(offset, byte)` stores performed on the output buffer `sp`. -/
structure RemRes where
  elem : Elem
  rest : List Elem
  writes : List (Nat × Nat)
  deriving DecidableEq, Repr

/-- `q_remove_head` from `queue.c`: `none` when the handle is NULL or the
queue is empty; otherwise unlink the first element, after performing
`strncpy(sp, e->value, bufsize - 1)` and `sp[bufsize - 1] = 0` whenever a
buffer is given (`spGiven`).  `bufsize - 1` is `size_t` arithmetic. -/
def q_remove_head (q : Option (List Elem)) (spGiven : Bool) (bufsize : Nat) :
    Option RemRes :=
  match q with
  | none => none
  | some [] => none
  | some (e :: rest) =>
    some ⟨e, rest,
      if spGiven then
        strncpyWrites e.value (sizeSub1 bufsize) ++ [(sizeSub1 bufsize, 0)]
      else []⟩

/-- `q_remove_tail` from `queue.c`: same as `q_remove_head` but unlinking
the last element. -/
def q_remove_tail (q : Option (List Elem)) (spGiven : Bool) (bufsize : Nat) :
    Option RemRes :=
  match q with
  | none => none
  | some [] => none
  | some (e :: rest) =>
    some ⟨(e :: rest).getLast (by simp), (e :: rest).dropLast,
      if spGiven then
        strncpyWrites ((e :: rest).getLast (by simp)).value (sizeSub1 bufsize)
          ++ [(sizeSub1 bufsize, 0)]
      else []⟩

/-- `q_size` from `queue.c`: 0 on a NULL handle or empty queue, otherwise
the number of elements counted by a full traversal. -/
def q_size : Option (List Elem) → Nat
  | none => 0
  | some l => l.length

/-- The fast/slow loop of `q_delete_mid`: both start at the first element;
`fast` advances two links per step while neither it nor its successor is
the sentinel; the accumulator counts the steps of `slow`.  The argument
list is the part of the queue from `fast` to the tail. -/
def midIndex : List Elem → Nat → Nat
  | [], k => k
  | [_], k => k
  | _ :: _ :: rest, k => midIndex rest (k + 1)

theorem midIndex_eq : ∀ (l : List Elem) (k : Nat), midIndex l k = k + l.length / 2
  | [], k => by simp [midIndex]
  | [a], k => by simp [midIndex]
  | a :: b :: rest, k => by
    rw [midIndex, midIndex_eq rest (k + 1)]
    simp only [List.length_cons]
    omega

/-- `q_delete_mid` from `queue.c`: false on a NULL handle or empty queue;
otherwise unlink and release the node `slow` points at when the fast/slow
loop stops, i.e. the node at index `midIndex l 0`. -/
def q_delete_mid : Option (List Elem) → Option (List Elem) × Bool
  | none => (none, false)
  | some [] => (some [], false)
  | some (e :: rest) =>
    (some ((e :: rest).eraseIdx (midIndex (e :: rest) 0)), true)

/-- The `list_for_each_entry_safe` pass of `q_delete_dup`: walk the
elements in order carrying the `dup` flag; a node equal (by `strcmp`) to
its immediate successor is deleted and sets the flag, a node reached with
the flag set is deleted and clears it, any other node survives.  Deleting
a node never changes its successor's `next` link, so each node is compared
against its original successor. -/
def delDupGo (dup : Bool) : List Elem → List Elem
  | [] => []
  | [a] => if dup then [] else [a]
  | a :: b :: rest =>
    if strcmp a.value b.value = 0 then delDupGo true (b :: rest)
    else if dup then delDupGo false (b :: rest)
    else a :: delDupGo dup (b :: rest)

/-- `q_delete_dup` from `queue.c`: false only on a NULL handle; true with
no mutation on an empty or singular queue; otherwise run the
duplicate-deleting pass and return true. -/
def q_delete_dup : Option (List Elem) → Option (List Elem) × Bool
  | none => (none, false)
  | some l => if l.length ≤ 1 then (some l, true) else (some (delDupGo false l), true)

/-- The loop of `q_swap`: for each pair of adjacent nodes, unlink the
second and re-insert it immediately before the first, then step past the
pair; a trailing odd node is left in place. -/
def swapGo : List Elem → List Elem
  | [] => []
  | [a] => [a]
  | a :: b :: rest => b :: a :: swapGo rest

/-- `q_swap` from `queue.c`: no effect on a NULL handle or an empty or
singular queue, otherwise swap adjacent pairs. -/
def q_swap : Option (List Elem) → Option (List Elem)
  | none => none
  | some l => if l.length ≤ 1 then some l else some (swapGo l)

/-- `q_reverse` from `queue.c`: no effect on a NULL handle or an empty or
singular queue; otherwise the `list_for_each_safe` loop moves each node in
original order to the front (`list_move(node, head)`), which accumulates
the elements in reversed order. -/
def q_reverse : Option (List Elem) → Option (List Elem)
  | none => none
  | some l => if l.length ≤ 1 then some l else some (l.foldl (fun acc e => e :: acc) [])

theorem foldl_cons_eq_reverse (l acc : List Elem) :
    l.foldl (fun acc e => e :: acc) acc = l.reverse ++ acc := by
  induction l generalizing acc with
  | nil => simp
  | cons a r ih => simp [List.foldl_cons, ih]

theorem q_reverse_some (l : List Elem) : q_reverse (some l) = some l.reverse := by
  have hdef : q_reverse (some l) =
      if l.length ≤ 1 then some l
      else some (l.foldl (fun acc e => e :: acc) []) := rfl
  rw [hdef]
  split
  · rename_i h
    match l, h with
    | [], _ => rfl
    | [a], _ => rfl
  · rw [foldl_cons_eq_reverse]
    simp

/-- Boolean test "element value equals `v`". -/
def vEq (v : CStr) : Elem → Bool := fun e => decide (e.value = v)

/-- The effect of the `dup` flag: `delDupGo true l` first discards the
maximal chain of leading elements each equal to its successor (the
remainder of the duplicate run in progress), then continues the pass with
the flag cleared. -/
def chainDrop : List Elem → List Elem
  | [] => []
  | [_] => []
  | a :: b :: rest => if a.value = b.value then chainDrop (b :: rest) else b :: rest

theorem delDupGo_true_eq : ∀ l : List Elem, delDupGo true l = delDupGo false (chainDrop l)
  | [] => rfl
  | [a] => rfl
  | a :: b :: rest => by
    rw [delDupGo, chainDrop]
    rcases eq_or_ne a.value b.value with h | h
    · rw [if_pos ((strcmp_eq_zero_iff _ _).2 h), if_pos h]
      exact delDupGo_true_eq (b :: rest)
    · rw [if_neg (fun hc => h ((strcmp_eq_zero_iff _ _).1 hc)), if_neg h]
      rfl

theorem chainDrop_eq_dropWhile :
    ∀ (r : List Elem) (a : Elem) (v : CStr), a.value = v →
      chainDrop (a :: r) = List.dropWhile (vEq v) (a :: r)
  | [], a, v, h => by
    rw [chainDrop]
    simp [List.dropWhile_cons, vEq, h]
  | b :: r, a, v, h => by
    rcases eq_or_ne a.value b.value with hab | hab
    · have hbv : b.value = v := hab.symm.trans h
      rw [chainDrop, if_pos hab, chainDrop_eq_dropWhile r b v hbv]
      simp [List.dropWhile_cons, vEq, h, hbv]
    · have hbv : ¬ b.value = v := fun hc => hab (h.trans hc.symm)
      rw [chainDrop, if_neg hab]
      simp [List.dropWhile_cons, vEq, h, hbv]

/-- Specification-side description of the duplicate-deletion pass, written
from the observable property: an element whose immediate successor has an
equal string starts (or continues) a duplicate run, and the whole maximal
run is discarded; an element whose successor differs (or that is last) and
that does not sit in a run survives. -/
def dedupRunsSpec : List Elem → List Elem
  | [] => []
  | a :: r =>
    if (r.takeWhile (vEq a.value)).isEmpty then a :: dedupRunsSpec r
    else dedupRunsSpec (r.dropWhile (vEq a.value))
termination_by l => l.length
decreasing_by
  · simp only [List.length_cons]
    omega
  · have h : (List.dropWhile (vEq a.value) r).Sublist r := List.dropWhile_sublist _
    have := h.length_le
    simp only [List.length_cons]
    omega

theorem dedupRunsSpec_nil : dedupRunsSpec [] = [] := by
  rw [dedupRunsSpec]

theorem dedupRunsSpec_cons (a : Elem) (r : List Elem) :
    dedupRunsSpec (a :: r) =
      if (r.takeWhile (vEq a.value)).isEmpty then a :: dedupRunsSpec r
      else dedupRunsSpec (r.dropWhile (vEq a.value)) := by
  rw [dedupRunsSpec]

theorem delDupGo_false_eq (n : Nat) :
    ∀ l : List Elem, l.length ≤ n → delDupGo false l = dedupRunsSpec l := by
  induction n with
  | zero =>
    intro l hl
    have hnil : l = [] := by
      cases l with
      | nil => rfl
      | cons a r => simp at hl
    subst hnil
    rw [dedupRunsSpec_nil]
    rfl
  | succ n ih =>
    intro l hl
    cases l with
    | nil =>
      rw [dedupRunsSpec_nil]
      rfl
    | cons a r =>
      cases r with
      | nil =>
        rw [dedupRunsSpec_cons]
        simp [delDupGo, dedupRunsSpec_nil]
      | cons b rest =>
        rw [delDupGo, dedupRunsSpec_cons]
        simp only [List.length_cons] at hl
        rcases eq_or_ne a.value b.value with h | h
        · rw [if_pos ((strcmp_eq_zero_iff _ _).2 h)]
          have htw : ¬ ((b :: rest).takeWhile (vEq a.value)).isEmpty := by
            rw [List.takeWhile_cons]
            simp [vEq, h.symm]
          rw [if_neg htw]
          rw [delDupGo_true_eq, chainDrop_eq_dropWhile rest b a.value h.symm]
          have hsub : (List.dropWhile (vEq a.value) (b :: rest)).Sublist (b :: rest) :=
            List.dropWhile_sublist _
          have hlen := hsub.length_le
          refine ih _ ?_
          simp only [List.length_cons] at hlen
          omega
        · rw [if_neg (fun hc => h ((strcmp_eq_zero_iff _ _).1 hc))]
          rw [if_neg (by simp)]
          have hba : ¬ b.value = a.value := fun hc => h hc.symm
          have htw : ((b :: rest).takeWhile (vEq a.value)).isEmpty := by
            rw [List.takeWhile_cons]
            simp [vEq, hba]
          rw [if_pos htw]
          rw [ih (b :: rest) (by simp only [List.length_cons]; omega)]

theorem delDupGo_false_eq_spec (l : List Elem) : delDupGo false l = dedupRunsSpec l :=
  delDupGo_false_eq l.length l le_rfl

theorem dedupRunsSpec_sublist (n : Nat) :
    ∀ l : List Elem, l.length ≤ n → (dedupRunsSpec l).Sublist l := by
  induction n with
  | zero =>
    intro l hl
    have hnil : l = [] := by
      cases l with
      | nil => rfl
      | cons a r => simp at hl
    subst hnil
    rw [dedupRunsSpec_nil]
  | succ n ih =>
    intro l hl
    cases l with
    | nil => rw [dedupRunsSpec_nil]
    | cons a r =>
      rw [dedupRunsSpec_cons]
      simp only [List.length_cons] at hl
      split
      · exact (ih r (by omega)).cons₂ a
      · have hsub : (List.dropWhile (vEq a.value) r).Sublist r :=
          List.dropWhile_sublist _
        refine List.Sublist.trans (List.Sublist.trans (ih _ ?_) hsub)
          (List.sublist_cons_self a r)
        have := hsub.length_le
        omega

theorem dedupRunsSpec_sublist_self (l : List Elem) : (dedupRunsSpec l).Sublist l :=
  dedupRunsSpec_sublist l.length l le_rfl

theorem dedupRunsSpec_short (l : List Elem) (h : l.length ≤ 1) : dedupRunsSpec l = l := by
  cases l with
  | nil => rw [dedupRunsSpec_nil]
  | cons a r =>
    cases r with
    | nil =>
      rw [dedupRunsSpec_cons]
      simp [dedupRunsSpec_nil]
    | cons b rest => simp at h

/-- The queue left behind by a successful `q_delete_dup` call, as a total
function of the input queue. -/
theorem q_delete_dup_eq (l : List Elem) :
    q_delete_dup (some l) = (some (dedupRunsSpec l), true) := by
  have hdef : q_delete_dup (some l) =
      if l.length ≤ 1 then (some l, true) else (some (delDupGo false l), true) := rfl
  rw [hdef]
  split
  · rw [dedupRunsSpec_short l (by omega)]
  · rw [delDupGo_false_eq_spec]

theorem dropWhile_head_false (p : Elem → Bool) :
    ∀ (l : List Elem) (b : Elem) (t : List Elem),
      l.dropWhile p = b :: t → p b = false
  | [], b, t, h => by simp [List.dropWhile] at h
  | a :: r, b, t, h => by
    rw [List.dropWhile_cons] at h
    by_cases hpa : p a
    · rw [if_pos hpa] at h
      exact dropWhile_head_false p r b t h
    · rw [if_neg hpa] at h
      cases h
      exact Bool.eq_false_iff.2 hpa

theorem slt_head_all (a : Elem) (d : List Elem) (hd : d.Sorted sle)
    (hmem : ∀ e ∈ d, sle a e)
    (hne : ∀ b t, d = b :: t → b.value ≠ a.value) :
    ∀ e ∈ d, strcmp a.value e.value < 0 := by
  cases d with
  | nil => intro e he; cases he
  | cons b t =>
    have hab : sle a b := hmem b (List.mem_cons_self b t)
    have hne' : b.value ≠ a.value := hne b t rfl
    have haltb : strcmp a.value b.value < 0 :=
      strcmp_lt_of_le_of_ne hab (fun hc => hne' hc.symm)
    intro e he
    rcases List.mem_cons.1 he with he | he
    · subst he; exact haltb
    · exact strcmp_lt_le_trans haltb ((List.sorted_cons.1 hd).1 e he)

theorem value_ne_of_slt {a e : Elem} (h : strcmp a.value e.value < 0) :
    e.value ≠ a.value := by
  intro hc
  rw [hc, strcmp_self] at h
  omega

/-- In a sorted list whose head is not immediately duplicated, the head's
string is strictly below every later element's string. -/
theorem sorted_keep_lt (a : Elem) (r : List Elem)
    (hs : (a :: r).Sorted sle)
    (htw : (r.takeWhile (vEq a.value)).isEmpty) :
    ∀ e ∈ r, strcmp a.value e.value < 0 := by
  rcases List.sorted_cons.1 hs with ⟨hmem, hr⟩
  refine slt_head_all a r hr hmem ?_
  intro b t hbt hbv
  subst hbt
  rw [List.takeWhile_cons] at htw
  simp [vEq, hbv] at htw

/-- In a sorted list, every element surviving the `dropWhile` of the
head's run has a string strictly above the head's. -/
theorem sorted_drop_lt (a : Elem) (r : List Elem)
    (hs : (a :: r).Sorted sle) :
    ∀ e ∈ r.dropWhile (vEq a.value), strcmp a.value e.value < 0 := by
  rcases List.sorted_cons.1 hs with ⟨hmem, hr⟩
  have hsub : (r.dropWhile (vEq a.value)).Sublist r := List.dropWhile_sublist _
  refine slt_head_all a _ (hr.sublist hsub) ?_ ?_
  · intro e he
    exact hmem e (hsub.mem he)
  · intro b t hbt hbv
    have := dropWhile_head_false (vEq a.value) r b t hbt
    simp [vEq, hbv] at this

theorem dedupRunsSpec_sorted_slt (n : Nat) :
    ∀ l : List Elem, l.length ≤ n → l.Sorted sle → (dedupRunsSpec l).Sorted slt := by
  induction n with
  | zero =>
    intro l hl hs
    have hnil : l = [] := by
      cases l with
      | nil => rfl
      | cons a r => simp at hl
    subst hnil
    rw [dedupRunsSpec_nil]
    simp
  | succ n ih =>
    intro l hl hs
    cases l with
    | nil => rw [dedupRunsSpec_nil]; simp
    | cons a r =>
      rw [dedupRunsSpec_cons]
      simp only [List.length_cons] at hl
      rcases List.sorted_cons.1 hs with ⟨hmem, hr⟩
      split
      · rename_i htw
        rw [List.sorted_cons]
        constructor
        · intro e he
          exact sorted_keep_lt a r hs htw e ((dedupRunsSpec_sublist_self r).mem he)
        · exact ih r (by omega) hr
      · have hsub : (r.dropWhile (vEq a.value)).Sublist r := List.dropWhile_sublist _
        refine ih _ ?_ (hr.sublist hsub)
        have := hsub.length_le
        omega

/-- Boolean test "the string of `e` occurs exactly once among the strings
of `l`" (the strings that were unique in the original queue). -/
def uniqIn (l : List Elem) : Elem → Bool :=
  fun e => decide (l.countP (vEq e.value) = 1)

theorem filter_uniq_decomp (a : Elem) (w d : List Elem)
    (hw : ∀ e ∈ w, e.value = a.value) (hwne : w ≠ [])
    (hd : ∀ e ∈ d, e.value ≠ a.value) :
    (a :: (w ++ d)).filter (uniqIn (a :: (w ++ d))) = d.filter (uniqIn d) := by
  have hcnt2 : 2 ≤ (a :: (w ++ d)).countP (vEq a.value) := by
    rw [List.countP_cons, List.countP_append]
    have hself : vEq a.value a = true := by simp [vEq]
    have hwpos : 0 < w.countP (vEq a.value) := by
      rw [List.countP_pos_iff]
      cases w with
      | nil => exact absurd rfl hwne
      | cons x w' =>
        exact ⟨x, List.mem_cons_self x w', by simp [vEq, hw x (List.mem_cons_self x w')]⟩
    rw [hself]
    simp only [if_true, eq_self_iff_true]
    omega
  have hwcnt : ∀ e ∈ w, (a :: (w ++ d)).countP (vEq e.value) =
      (a :: (w ++ d)).countP (vEq a.value) := by
    intro e he
    rw [hw e he]
  have hdcnt : ∀ e ∈ d, (a :: (w ++ d)).countP (vEq e.value) = d.countP (vEq e.value) := by
    intro e he
    rw [List.countP_cons, List.countP_append]
    have hea : vEq e.value a = false := by
      simp only [vEq, decide_eq_false_iff_not]
      exact fun hc => hd e he hc.symm
    have hwz : w.countP (vEq e.value) = 0 := by
      rw [List.countP_eq_zero]
      intro x hx
      simp only [vEq, decide_eq_true_eq]
      rw [hw x hx]
      exact fun hc => hd e he hc.symm
    rw [hea, hwz]
    simp
  rw [List.filter_cons]
  have hua : uniqIn (a :: (w ++ d)) a = false := by
    have hne1 : ¬ ((a :: (w ++ d)).countP (vEq a.value) = 1) := by omega
    simpa [uniqIn] using hne1
  rw [hua]
  simp only [Bool.false_eq_true, if_false, List.filter_append]
  have hfw : w.filter (uniqIn (a :: (w ++ d))) = [] := by
    rw [List.filter_eq_nil_iff]
    intro x hx
    simp only [uniqIn, decide_eq_true_eq]
    rw [hwcnt x hx]
    omega
  rw [hfw, List.nil_append]
  refine List.filter_congr ?_
  intro x hx
  simp only [uniqIn]
  rw [hdcnt x hx]

theorem dedupRunsSpec_eq_filter (n : Nat) :
    ∀ l : List Elem, l.length ≤ n → l.Sorted sle →
      dedupRunsSpec l = l.filter (uniqIn l) := by
  induction n with
  | zero =>
    intro l hl hs
    have hnil : l = [] := by
      cases l with
      | nil => rfl
      | cons a r => simp at hl
    subst hnil
    rw [dedupRunsSpec_nil]
    rfl
  | succ n ih =>
    intro l hl hs
    cases l with
    | nil => rw [dedupRunsSpec_nil]; rfl
    | cons a r =>
      rw [dedupRunsSpec_cons]
      simp only [List.length_cons] at hl
      rcases List.sorted_cons.1 hs with ⟨hmem, hr⟩
      split
      · rename_i htw
        have hlt : ∀ e ∈ r, strcmp a.value e.value < 0 := sorted_keep_lt a r hs htw
        have hner : ∀ e ∈ r, e.value ≠ a.value := fun e he => value_ne_of_slt (hlt e he)
        have hcnt1 : (a :: r).countP (vEq a.value) = 1 := by
          rw [List.countP_cons]
          have hself : vEq a.value a = true := by simp [vEq]
          have hz : r.countP (vEq a.value) = 0 := by
            rw [List.countP_eq_zero]
            intro x hx
            simp only [vEq, decide_eq_true_eq]
            exact hner x hx
          rw [hself, hz]
          simp
        rw [List.filter_cons]
        have hua : uniqIn (a :: r) a = true := by
          simp only [uniqIn, decide_eq_true_eq]
          exact hcnt1
        rw [hua]
        simp only [if_true]
        have hcongr : r.filter (uniqIn (a :: r)) = r.filter (uniqIn r) := by
          refine List.filter_congr ?_
          intro x hx
          simp only [uniqIn]
          rw [List.countP_cons]
          have hxa : vEq x.value a = false := by
            simp only [vEq, decide_eq_false_iff_not]
            exact fun hc => hner x hx (hc.symm)
          rw [hxa]
          simp
        rw [hcongr, ih r (by omega) hr]
      · rename_i htw
        have hw : ∀ e ∈ r.takeWhile (vEq a.value), e.value = a.value := by
          intro e he
          have := List.mem_takeWhile_imp he
          simpa [vEq] using this
        have hwne : r.takeWhile (vEq a.value) ≠ [] := by
          intro hc
          rw [hc] at htw
          exact htw rfl
        have hd : ∀ e ∈ r.dropWhile (vEq a.value), e.value ≠ a.value :=
          fun e he => value_ne_of_slt (sorted_drop_lt a r hs e he)
        have key := filter_uniq_decomp a (r.takeWhile (vEq a.value))
          (r.dropWhile (vEq a.value)) hw hwne hd
        have hsplit : a :: (r.takeWhile (vEq a.value) ++ r.dropWhile (vEq a.value)) = a :: r := by
          rw [List.takeWhile_append_dropWhile]
        rw [hsplit] at key
        rw [key]
        have hsub : (r.dropWhile (vEq a.value)).Sublist r := List.dropWhile_sublist _
        refine ih _ ?_ (hr.sublist hsub)
        have := hsub.length_le
        omega

theorem dedupRunsSpec_eq_filter_self (l : List Elem) (hs : l.Sorted sle) :
    dedupRunsSpec l = l.filter (uniqIn l) :=
  dedupRunsSpec_eq_filter l.length l le_rfl hs

/-- A C pointer value: a node address, or NULL. -/
abbrev Ptr := Option Nat

/-- Look up the in-ring successor of `x` along the element chain `c` of a
circular list with sentinel `h`: the next chain node after `x`, or the
sentinel when `x` is the last chain node. -/
def succAfter (h : Nat) : List Nat → Nat → Ptr
  | [], _ => none
  | [a], x => if x = a then some h else none
  | a :: b :: r, x => if x = a then some b else succAfter h (b :: r) x

/-- The canonical `next` pointer map of the circular doubly-linked list
with sentinel `h` and element nodes `c` (in head-to-tail order). -/
def qNext (h : Nat) (c : List Nat) (x : Nat) : Ptr :=
  if x = h then some (c.headD h) else succAfter h c x

/-- The canonical `prev` pointer map: the predecessor in the ring
`h :: c` is the successor in the reversed ring `h :: c.reverse`. -/
def qPrev (h : Nat) (c : List Nat) (x : Nat) : Ptr :=
  qNext h c.reverse x

/-- Follow a pointer map for a given number of steps, failing on NULL. -/
def walk (f : Nat → Ptr) : Nat → Nat → Ptr
  | 0, x => some x
  | k + 1, x =>
    match f x with
    | none => none
    | some y => walk f k y

/-- A single pointer-field store: the map `f` updated at address `a`. -/
def updF (f : Nat → Ptr) (a : Nat) (v : Ptr) : Nat → Ptr :=
  fun y => if y = a then v else f y

/-- The `next` links of a NUL-terminated singly-linked chain whose nodes
in order are `c` (as produced by `mergesort`): each node points at the
following one, the last at NULL. -/
def chainNext : List Nat → Nat → Ptr
  | [], _ => none
  | [_], _ => none
  | a :: b :: r, x => if x = a then some b else chainNext (b :: r) x

/-- The relink loop of `q_sort`
(`while (tmp->next) { tmp->next->prev = tmp; tmp = tmp->next; }`),
iterated over the sorted chain `c`: starting from `tmp`, store `tmp` into
the `prev` field of each chain node in turn.  Returns the updated `prev`
map and the final value of `tmp`. -/
def relinkLoop (p : Nat → Ptr) (tmp : Nat) : List Nat → (Nat → Ptr) × Nat
  | [] => (p, tmp)
  | x :: r => relinkLoop (updF p x (some tmp)) x r

/-- The `next` map after `q_sort` returns, built from the code: the
mergesorted chain's links, then `head->next = node` (the first sorted
node), then `tmp->next = head` where `tmp` is where the relink loop
stopped (the last sorted node). -/
def sortNextMap (h : Nat) (c : List Nat) : Nat → Ptr :=
  updF (updF (chainNext c) h (some (c.headD h)))
    (relinkLoop (fun _ => none) h c).2 (some h)

/-- The `prev` map after `q_sort` returns, built from the code: whatever
stale map `p0` was left by the merge phase, overwritten by the relink
loop's stores and the final `head->prev = tmp`. -/
def sortPrevMap (h : Nat) (p0 : Nat → Ptr) (c : List Nat) : Nat → Ptr :=
  updF (relinkLoop p0 h c).1 h (some (relinkLoop p0 h c).2)

/-- The node addresses of a queue's elements in order. -/
def ids (l : List Elem) : List Nat := l.map Elem.id

/-- The circular doubly-linked invariant of the ring `h :: c`, phrased on
the canonical pointer maps: every node's `next` and `prev` are inverse to
each other, and walking `size` steps and then once more, forward or
backward, returns exactly to the sentinel. -/
def InvHolds (h : Nat) (c : List Nat) : Prop :=
  (∀ x ∈ h :: c, ∃ y, qNext h c x = some y ∧ qPrev h c y = some x) ∧
  (∀ x ∈ h :: c, ∃ z, qPrev h c x = some z ∧ qNext h c z = some x) ∧
  walk (qNext h c) (c.length + 1) h = some h ∧
  walk (qPrev h c) (c.length + 1) h = some h

theorem getD_mem : ∀ (l : List Nat) (i : Nat), i < l.length → l.getD i 0 ∈ l
  | a :: r, 0, _ => List.mem_cons_self a r
  | a :: r, i + 1, hi => by
    rw [List.getD_cons_succ]
    exact List.mem_cons_of_mem a (getD_mem r i (by simpa using hi))

theorem mem_getD : ∀ (l : List Nat) (x : Nat), x ∈ l →
    ∃ i, i < l.length ∧ l.getD i 0 = x
  | a :: r, x, hx => by
    rcases List.mem_cons.1 hx with hx | hx
    · exact ⟨0, by simp, hx.symm⟩
    · rcases mem_getD r x hx with ⟨i, hi, hg⟩
      exact ⟨i + 1, by simpa using hi, by simpa using hg⟩

theorem getD_reverse (l : List Nat) (i : Nat) (hi : i < l.length) :
    l.reverse.getD i 0 = l.getD (l.length - 1 - i) 0 := by
  have h1 : i < l.reverse.length := by simpa using hi
  have h2 : l.length - 1 - i < l.length := by omega
  rw [List.getD_eq_getElem?_getD, List.getD_eq_getElem?_getD]
  rw [List.getElem?_eq_getElem h1, List.getElem?_eq_getElem h2]
  simp only [Option.getD_some]
  exact List.getElem_reverse h1

theorem succAfter_getD (h : Nat) :
    ∀ (c : List Nat), c.Nodup → ∀ i, i < c.length →
      succAfter h c (c.getD i 0) =
        some (if i + 1 < c.length then c.getD (i + 1) 0 else h)
  | [], _, i, hi => by simp at hi
  | [a], _, 0, _ => by
    rw [List.getD_cons_zero, succAfter, if_pos rfl]
    simp
  | [a], _, i + 1, hi => by simp at hi
  | a :: b :: r, hnd, 0, _ => by
    rw [List.getD_cons_zero, succAfter, if_pos rfl]
    have : (0 : Nat) + 1 < (a :: b :: r).length := by
      simp only [List.length_cons]
      omega
    rw [if_pos this]
    rfl
  | a :: b :: r, hnd, j + 1, hj => by
    rcases List.nodup_cons.1 hnd with ⟨ham, hnd'⟩
    have hj' : j < (b :: r).length := by
      simp only [List.length_cons] at hj ⊢
      omega
    have hmem : (b :: r).getD j 0 ∈ b :: r := getD_mem _ j hj'
    have hne : (b :: r).getD j 0 ≠ a := fun hc => ham (hc ▸ hmem)
    rw [List.getD_cons_succ, succAfter, if_neg hne,
      succAfter_getD h (b :: r) hnd' j hj']
    by_cases hlt : j + 1 < (b :: r).length
    · have hlt2 : j + 1 + 1 < (a :: b :: r).length := by
        simp only [List.length_cons] at hlt ⊢
        omega
      rw [if_pos hlt, if_pos hlt2]
      simp only [List.getD_cons_succ]
    · have hlt2 : ¬ (j + 1 + 1 < (a :: b :: r).length) := by
        simp only [List.length_cons] at hlt ⊢
        omega
      rw [if_neg hlt, if_neg hlt2]

theorem qNext_getD (h : Nat) (c : List Nat) (hnd : (h :: c).Nodup) :
    ∀ i, i < (h :: c).length →
      qNext h c ((h :: c).getD i 0) =
        some ((h :: c).getD (if i + 1 < (h :: c).length then i + 1 else 0) 0) := by
  rcases List.nodup_cons.1 hnd with ⟨hm, hc⟩
  intro i hi
  cases i with
  | zero =>
    rw [List.getD_cons_zero]
    rw [qNext, if_pos rfl]
    cases c with
    | nil => simp
    | cons a r =>
      have : (0 : Nat) + 1 < (h :: a :: r).length := by
        simp only [List.length_cons]
        omega
      rw [if_pos this]
      rfl
  | succ j =>
    have hj : j < c.length := by
      simp only [List.length_cons] at hi
      omega
    have hmem : c.getD j 0 ∈ c := getD_mem c j hj
    have hne : c.getD j 0 ≠ h := fun hc' => hm (hc' ▸ hmem)
    rw [List.getD_cons_succ, qNext, if_neg hne, succAfter_getD h c hc j hj]
    by_cases hlt : j + 1 < c.length
    · have hlt2 : j + 1 + 1 < (h :: c).length := by
        simp only [List.length_cons]
        omega
      rw [if_pos hlt, if_pos hlt2]
      simp only [List.getD_cons_succ]
    · have hlt2 : ¬ (j + 1 + 1 < (h :: c).length) := by
        simp only [List.length_cons] at hlt ⊢
        omega
      rw [if_neg hlt, if_neg hlt2, List.getD_cons_zero]

theorem walk_no_wrap (h : Nat) (c : List Nat) (hnd : (h :: c).Nodup) :
    ∀ (m i : Nat), i + m < (h :: c).length →
      walk (qNext h c) m ((h :: c).getD i 0) = some ((h :: c).getD (i + m) 0) := by
  intro m
  induction m with
  | zero =>
    intro i hi
    rfl
  | succ m ih =>
    intro i hi
    have hstep := qNext_getD h c hnd i (by omega)
    rw [if_pos (by omega)] at hstep
    have hrest := ih (i + 1) (by omega)
    have harith : i + 1 + m = i + (m + 1) := by omega
    rw [harith] at hrest
    simp only [walk]
    rw [hstep]
    exact hrest

theorem walk_snoc (f : Nat → Ptr) :
    ∀ (m : Nat) (x : Nat), walk f (m + 1) x =
      match walk f m x with
      | none => none
      | some y => f y := by
  intro m
  induction m with
  | zero =>
    intro x
    cases hfx : f x <;> simp [walk, hfx]
  | succ m ih =>
    intro x
    cases hfx : f x with
    | none => simp [walk, hfx]
    | some y =>
      have h1 : walk f (m + 1 + 1) x = walk f (m + 1) y := by
        simp only [walk, hfx]
      have h2 : walk f (m + 1) x = walk f m y := by
        simp only [walk, hfx]
      rw [h1, h2, ih y]

theorem walk_ring_next (h : Nat) (c : List Nat) (hnd : (h :: c).Nodup) :
    walk (qNext h c) (c.length + 1) h = some h := by
  have hw := walk_no_wrap h c hnd c.length 0
    (by simp only [List.length_cons]; omega)
  rw [List.getD_cons_zero] at hw
  rw [walk_snoc, hw]
  show qNext h c ((h :: c).getD (0 + c.length) 0) = some h
  have hstep := qNext_getD h c hnd c.length (by simp only [List.length_cons]; omega)
  rw [if_neg (by simp only [List.length_cons]; omega)] at hstep
  have harith : 0 + c.length = c.length := by omega
  rw [harith, hstep, List.getD_cons_zero]

theorem nodup_ring_reverse {h : Nat} {c : List Nat} (hnd : (h :: c).Nodup) :
    (h :: c.reverse).Nodup := by
  rcases List.nodup_cons.1 hnd with ⟨hm, hc⟩
  exact List.nodup_cons.2 ⟨by simpa using hm, List.nodup_reverse.2 hc⟩

theorem ring_reverse_getD (h : Nat) (c : List Nat) :
    ∀ j, j < c.length + 1 →
      (h :: c.reverse).getD j 0 =
        (h :: c).getD (if j = 0 then 0 else c.length + 1 - j) 0 := by
  intro j hj
  cases j with
  | zero => rfl
  | succ m =>
    have hm : m < c.length := by omega
    rw [List.getD_cons_succ, getD_reverse c m hm]
    rw [if_neg (by omega)]
    have harith : c.length + 1 - (m + 1) = (c.length - 1 - m) + 1 := by omega
    rw [harith, List.getD_cons_succ]

theorem qPrev_getD (h : Nat) (c : List Nat) (hnd : (h :: c).Nodup) :
    ∀ i, i < (h :: c).length →
      qPrev h c ((h :: c).getD i 0) =
        some ((h :: c).getD (if i = 0 then c.length else i - 1) 0) := by
  intro i hi
  simp only [List.length_cons] at hi
  have hnd' : (h :: c.reverse).Nodup := nodup_ring_reverse hnd
  have hlenr : (h :: c.reverse).length = c.length + 1 := by
    simp only [List.length_cons, List.length_reverse]
  -- the index of the same node inside the reversed ring
  have hx : (h :: c.reverse).getD (if i = 0 then 0 else c.length + 1 - i) 0 =
      (h :: c).getD i 0 := by
    by_cases h0 : i = 0
    · subst h0
      rw [if_pos rfl]
      rfl
    · rw [if_neg h0]
      rw [ring_reverse_getD h c (c.length + 1 - i) (by omega)]
      rw [if_neg (by omega)]
      have harith : c.length + 1 - (c.length + 1 - i) = i := by omega
      rw [harith]
  rw [← hx, qPrev]
  rw [qNext_getD h c.reverse hnd' (if i = 0 then 0 else c.length + 1 - i)
    (by rw [hlenr]; split <;> omega)]
  by_cases h0 : i = 0
  · subst h0
    rw [if_pos rfl]
    simp only [if_pos rfl]
    by_cases hc0 : c.length = 0
    · have hcnil : c = [] := List.length_eq_zero.1 hc0
      subst hcnil
      simp
    · rw [if_pos (by rw [hlenr]; omega)]
      rw [ring_reverse_getD h c 1 (by omega), if_neg (by omega)]
      have harith : c.length + 1 - 1 = c.length := by omega
      rw [harith]
      simp
  · rw [if_neg h0]
    simp only [if_neg h0]
    by_cases h1 : i = 1
    · subst h1
      have hj1 : c.length + 1 - 1 = c.length := by omega
      rw [hj1]
      rw [if_neg (by rw [hlenr]; omega)]
      rfl
    · have hi2 : 2 ≤ i := by omega
      rw [if_pos (by rw [hlenr]; omega)]
      rw [ring_reverse_getD h c (c.length + 1 - i + 1) (by omega)]
      rw [if_neg (by omega)]
      have harith : c.length + 1 - (c.length + 1 - i + 1) = i - 1 := by omega
      rw [harith]

theorem walk_ring_prev (h : Nat) (c : List Nat) (hnd : (h :: c).Nodup) :
    walk (qPrev h c) (c.length + 1) h = some h := by
  have := walk_ring_next h c.reverse (nodup_ring_reverse hnd)
  simpa [qPrev] using this

theorem invHolds_of_nodup (h : Nat) (c : List Nat) (hnd : (h :: c).Nodup) :
    InvHolds h c := by
  refine ⟨?_, ?_, walk_ring_next h c hnd, walk_ring_prev h c hnd⟩
  · intro x hx
    rcases mem_getD (h :: c) x hx with ⟨i, hi, hgi⟩
    subst hgi
    refine ⟨(h :: c).getD (if i + 1 < (h :: c).length then i + 1 else 0) 0,
      qNext_getD h c hnd i hi, ?_⟩
    by_cases hlt : i + 1 < (h :: c).length
    · rw [if_pos hlt]
      rw [qPrev_getD h c hnd (i + 1) hlt]
      rw [if_neg (by omega)]
      have harith : i + 1 - 1 = i := by omega
      rw [harith]
    · rw [if_neg hlt]
      simp only [List.length_cons] at hi hlt
      have hie : i = c.length := by omega
      rw [qPrev_getD h c hnd 0 (by simp only [List.length_cons]; omega)]
      rw [if_pos rfl, hie]
  · intro x hx
    rcases mem_getD (h :: c) x hx with ⟨i, hi, hgi⟩
    subst hgi
    refine ⟨(h :: c).getD (if i = 0 then c.length else i - 1) 0,
      qPrev_getD h c hnd i hi, ?_⟩
    by_cases h0 : i = 0
    · subst h0
      rw [if_pos rfl]
      rw [qNext_getD h c hnd c.length (by simp only [List.length_cons]; omega)]
      rw [if_neg (by simp only [List.length_cons]; omega)]
    · rw [if_neg h0]
      simp only [List.length_cons] at hi
      rw [qNext_getD h c hnd (i - 1) (by simp only [List.length_cons]; omega)]
      rw [if_pos (by simp only [List.length_cons]; omega)]
      have harith : i - 1 + 1 = i := by omega
      rw [harith]

theorem nodup_getD_inj (c : List Nat) (hnd : c.Nodup) {i j : Nat}
    (hi : i < c.length) (hj : j < c.length)
    (he : c.getD i 0 = c.getD j 0) : i = j := by
  rw [List.getD_eq_getElem?_getD, List.getD_eq_getElem?_getD,
    List.getElem?_eq_getElem hi, List.getElem?_eq_getElem hj] at he
  simp only [Option.getD_some] at he
  exact (List.Nodup.getElem_inj_iff hnd).1 he

theorem getLastD_eq_getD :
    ∀ (c : List Nat) (d : Nat), c ≠ [] → c.getLastD d = c.getD (c.length - 1) 0
  | [a], d, _ => rfl
  | a :: b :: r, d, _ => by
    rw [List.getLastD_cons, getLastD_eq_getD (b :: r) a (by simp)]
    simp only [List.length_cons]
    have harith : r.length + 1 + 1 - 1 = (r.length + 1 - 1) + 1 := by omega
    rw [harith, List.getD_cons_succ]

theorem relinkLoop_tmp :
    ∀ (c : List Nat) (p : Nat → Ptr) (t : Nat), (relinkLoop p t c).2 = c.getLastD t
  | [], p, t => rfl
  | x :: r, p, t => by
    rw [relinkLoop, relinkLoop_tmp r _ x, List.getLastD_cons]

theorem updF_same (f : Nat → Ptr) (a : Nat) (v : Ptr) : updF f a v a = v := by
  simp [updF]

theorem updF_eq_of (f : Nat → Ptr) (a : Nat) (v : Ptr) (x : Nat) (h : x = a) :
    updF f a v x = v := by
  simp [updF, h]

theorem updF_other (f : Nat → Ptr) (a : Nat) (v : Ptr) (x : Nat) (h : x ≠ a) :
    updF f a v x = f x := by
  simp [updF, h]

theorem relinkLoop_not_mem :
    ∀ (c : List Nat) (p : Nat → Ptr) (t x : Nat), x ∉ c → (relinkLoop p t c).1 x = p x
  | [], p, t, x, _ => rfl
  | y :: r, p, t, x, hx => by
    rw [relinkLoop, relinkLoop_not_mem r _ y x (fun hc => hx (List.mem_cons_of_mem y hc))]
    exact updF_other p y (some t) x (fun hc => hx (by rw [hc]; exact List.mem_cons_self y r))

theorem relinkLoop_getD :
    ∀ (c : List Nat), c.Nodup → ∀ (p : Nat → Ptr) (t : Nat) (i : Nat), i < c.length →
      (relinkLoop p t c).1 (c.getD i 0) =
        some (if i = 0 then t else c.getD (i - 1) 0)
  | [], _, p, t, i, hi => by simp at hi
  | y :: r, hnd, p, t, 0, _ => by
    rcases List.nodup_cons.1 hnd with ⟨hym, hr⟩
    rw [List.getD_cons_zero, relinkLoop, relinkLoop_not_mem r _ y y hym, updF_same]
    rw [if_pos rfl]
  | y :: r, hnd, p, t, j + 1, hj => by
    rcases List.nodup_cons.1 hnd with ⟨hym, hr⟩
    have hj' : j < r.length := by
      simp only [List.length_cons] at hj
      omega
    rw [List.getD_cons_succ, relinkLoop, relinkLoop_getD r hr _ y j hj']
    rw [if_neg (Nat.succ_ne_zero j)]
    cases j with
    | zero =>
      rw [if_pos rfl]
      rfl
    | succ m =>
      rw [if_neg (Nat.succ_ne_zero m)]
      rfl

theorem chainNext_getD :
    ∀ (c : List Nat), c.Nodup → ∀ i, i + 1 < c.length →
      chainNext c (c.getD i 0) = some (c.getD (i + 1) 0)
  | [], _, i, hi => by simp at hi
  | [a], _, i, hi => by
    simp only [List.length_cons, List.length_nil] at hi
    omega
  | a :: b :: r, hnd, 0, hi => by
    rw [List.getD_cons_zero, chainNext, if_pos rfl]
    rfl
  | a :: b :: r, hnd, j + 1, hj => by
    rcases List.nodup_cons.1 hnd with ⟨ham, hnd'⟩
    have hj' : j + 1 < (b :: r).length := by
      simp only [List.length_cons] at hj ⊢
      omega
    have hmem : (b :: r).getD j 0 ∈ b :: r := getD_mem _ j (by simp only [List.length_cons] at hj' ⊢; omega)
    have hne : (b :: r).getD j 0 ≠ a := fun hc => ham (hc ▸ hmem)
    rw [List.getD_cons_succ, chainNext, if_neg hne, chainNext_getD (b :: r) hnd' j hj']
    rfl

theorem sortNextMap_eq (h : Nat) (c : List Nat) (hnd : (h :: c).Nodup) :
    ∀ x ∈ h :: c, sortNextMap h c x = qNext h c x := by
  rcases List.nodup_cons.1 hnd with ⟨hm, hc⟩
  intro x hx
  rcases mem_getD (h :: c) x hx with ⟨i, hi, hgi⟩
  subst hgi
  simp only [List.length_cons] at hi
  rw [sortNextMap, relinkLoop_tmp]
  cases i with
  | zero =>
    rw [List.getD_cons_zero]
    cases c with
    | nil =>
      have hgl : List.getLastD ([] : List Nat) h = h := rfl
      rw [hgl, updF_same, qNext, if_pos rfl]
      rfl
    | cons d r =>
      have hlast : (d :: r).getLastD h ∈ d :: r := by
        rw [getLastD_eq_getD (d :: r) h (by simp)]
        exact getD_mem _ _ (by simp only [List.length_cons]; omega)
      rw [updF_other _ _ _ h (fun hc' => hm (by rw [hc']; exact hlast))]
      rw [updF_same, qNext, if_pos rfl]
  | succ j =>
    have hj : j < c.length := by omega
    have hxc : (h :: c).getD (j + 1) 0 = c.getD j 0 := rfl
    have hxmem : c.getD j 0 ∈ c := getD_mem c j hj
    have hxh : c.getD j 0 ≠ h := fun hc' => hm (hc' ▸ hxmem)
    rw [hxc]
    have hcne : c ≠ [] := by
      intro hce
      subst hce
      simp at hj
    by_cases hlastj : j = c.length - 1
    · have htmp : c.getD j 0 = c.getLastD h := by
        rw [getLastD_eq_getD c h hcne, hlastj]
      rw [updF_eq_of _ _ _ _ htmp]
      have hq := qNext_getD h c hnd (j + 1) (by simp only [List.length_cons]; omega)
      rw [hxc] at hq
      rw [if_neg (by simp only [List.length_cons]; omega)] at hq
      rw [hq, List.getD_cons_zero]
    · have hne2 : c.getD j 0 ≠ c.getLastD h := by
        rw [getLastD_eq_getD c h hcne]
        intro hce
        have := nodup_getD_inj c hc hj (by omega) hce
        omega
      rw [updF_other _ _ _ _ hne2, updF_other _ _ _ _ hxh]
      rw [chainNext_getD c hc j (by omega)]
      have hq := qNext_getD h c hnd (j + 1) (by simp only [List.length_cons]; omega)
      rw [hxc] at hq
      rw [if_pos (by simp only [List.length_cons]; omega)] at hq
      rw [hq]
      rfl

theorem sortPrevMap_eq (h : Nat) (c : List Nat) (hnd : (h :: c).Nodup) (p0 : Nat → Ptr) :
    ∀ x ∈ h :: c, sortPrevMap h p0 c x = qPrev h c x := by
  rcases List.nodup_cons.1 hnd with ⟨hm, hc⟩
  intro x hx
  rcases mem_getD (h :: c) x hx with ⟨i, hi, hgi⟩
  subst hgi
  simp only [List.length_cons] at hi
  rw [sortPrevMap, relinkLoop_tmp]
  cases i with
  | zero =>
    rw [List.getD_cons_zero, updF_same]
    have hq := qPrev_getD h c hnd 0 (by simp only [List.length_cons]; omega)
    rw [List.getD_cons_zero, if_pos rfl] at hq
    rw [hq]
    cases c with
    | nil => rfl
    | cons d r =>
      rw [getLastD_eq_getD (d :: r) h (by simp)]
      simp only [List.length_cons, List.getD_cons_succ]
      have harith : r.length + 1 - 1 = r.length := by omega
      rw [harith]
  | succ j =>
    have hj : j < c.length := by omega
    have hxc : (h :: c).getD (j + 1) 0 = c.getD j 0 := rfl
    have hxmem : c.getD j 0 ∈ c := getD_mem c j hj
    have hxh : c.getD j 0 ≠ h := fun hc' => hm (hc' ▸ hxmem)
    rw [hxc, updF_other _ _ _ _ hxh]
    rw [relinkLoop_getD c hc p0 h j hj]
    have hq := qPrev_getD h c hnd (j + 1) (by simp only [List.length_cons]; omega)
    rw [hxc] at hq
    rw [if_neg (Nat.succ_ne_zero j)] at hq
    rw [hq]
    cases j with
    | zero =>
      rw [if_pos rfl]
      rfl
    | succ m =>
      rw [if_neg (Nat.succ_ne_zero m)]
      rfl

theorem qNext_mem_ring (h : Nat) (c : List Nat) (hnd : (h :: c).Nodup)
    {x y : Nat} (hx : x ∈ h :: c) (hxy : qNext h c x = some y) : y ∈ h :: c := by
  rcases mem_getD (h :: c) x hx with ⟨i, hi, hgi⟩
  subst hgi
  rw [qNext_getD h c hnd i hi] at hxy
  cases hxy
  by_cases hlt : i + 1 < (h :: c).length
  · rw [if_pos hlt]
    exact getD_mem _ _ hlt
  · rw [if_neg hlt]
    exact getD_mem _ _ (by simp only [List.length_cons]; omega)

theorem qPrev_mem_ring (h : Nat) (c : List Nat) (hnd : (h :: c).Nodup)
    {x y : Nat} (hx : x ∈ h :: c) (hxy : qPrev h c x = some y) : y ∈ h :: c := by
  rcases mem_getD (h :: c) x hx with ⟨i, hi, hgi⟩
  subst hgi
  rw [qPrev_getD h c hnd i hi] at hxy
  cases hxy
  simp only [List.length_cons] at hi
  by_cases h0 : i = 0
  · rw [if_pos h0]
    exact getD_mem _ _ (by simp only [List.length_cons]; omega)
  · rw [if_neg h0]
    exact getD_mem _ _ (by simp only [List.length_cons]; omega)

theorem walk_congr (f g : Nat → Ptr) (S : List Nat)
    (hfg : ∀ y ∈ S, f y = g y)
    (hcl : ∀ y ∈ S, ∀ z, g y = some z → z ∈ S) :
    ∀ (m : Nat) (x : Nat), x ∈ S → walk f m x = walk g m x := by
  intro m
  induction m with
  | zero => intro x _; rfl
  | succ m ih =>
    intro x hx
    simp only [walk]
    rw [hfg x hx]
    cases hgx : g x with
    | none => rfl
    | some z => exact ih z (hcl x hx z hgx)

/-- The ready-queue validity invariant at the pointer level: the sentinel
address and the element node addresses are pairwise distinct. -/
def ValidQ (h : Nat) (l : List Elem) : Prop := (h :: ids l).Nodup

theorem validq_of_sublist (h : Nat) {l r : List Elem}
    (hnd : ValidQ h l) (hsub : r.Sublist l) : ValidQ h r := by
  rcases List.nodup_cons.1 hnd with ⟨hm, hc⟩
  have hmap : (ids r).Sublist (ids l) := hsub.map Elem.id
  exact List.nodup_cons.2 ⟨fun hmem => hm (hmap.mem hmem), hc.sublist hmap⟩

theorem validq_of_perm (h : Nat) {l r : List Elem}
    (hnd : ValidQ h l) (hp : List.Perm r l) : ValidQ h r := by
  rcases List.nodup_cons.1 hnd with ⟨hm, hc⟩
  have hmap : List.Perm (ids r) (ids l) := hp.map Elem.id
  exact List.nodup_cons.2 ⟨fun hmem => hm (hmap.mem_iff.1 hmem), hc.perm hmap.symm⟩

theorem swapGo_perm : ∀ l : List Elem, List.Perm (swapGo l) l
  | [] => List.Perm.refl _
  | [a] => List.Perm.refl _
  | a :: b :: r => by
    rw [swapGo]
    exact (((swapGo_perm r).cons a).cons b).trans (List.Perm.swap a b r)

theorem sortMaps_ok (h : Nat) (c : List Nat) (hnd : (h :: c).Nodup) (p0 : Nat → Ptr) :
    (∀ x ∈ h :: c, sortNextMap h c x = qNext h c x ∧
       sortPrevMap h p0 c x = qPrev h c x) ∧
    (∀ x ∈ h :: c, ∃ y, sortNextMap h c x = some y ∧ sortPrevMap h p0 c y = some x) ∧
    (∀ x ∈ h :: c, ∃ z, sortPrevMap h p0 c x = some z ∧ sortNextMap h c z = some x) ∧
    walk (sortNextMap h c) (c.length + 1) h = some h ∧
    walk (sortPrevMap h p0 c) (c.length + 1) h = some h := by
  obtain ⟨hnp, hpn, hwn, hwp⟩ := invHolds_of_nodup h c hnd
  refine ⟨fun x hx => ⟨sortNextMap_eq h c hnd x hx, sortPrevMap_eq h c hnd p0 x hx⟩,
    ?_, ?_, ?_, ?_⟩
  · intro x hx
    obtain ⟨y, hy1, hy2⟩ := hnp x hx
    have hymem : y ∈ h :: c := qNext_mem_ring h c hnd hx hy1
    refine ⟨y, ?_, ?_⟩
    · rw [sortNextMap_eq h c hnd x hx]
      exact hy1
    · rw [sortPrevMap_eq h c hnd p0 y hymem]
      exact hy2
  · intro x hx
    obtain ⟨z, hz1, hz2⟩ := hpn x hx
    have hzmem : z ∈ h :: c := qPrev_mem_ring h c hnd hx hz1
    refine ⟨z, ?_, ?_⟩
    · rw [sortPrevMap_eq h c hnd p0 x hx]
      exact hz1
    · rw [sortNextMap_eq h c hnd z hzmem]
      exact hz2
  · rw [walk_congr (sortNextMap h c) (qNext h c) (h :: c)
      (sortNextMap_eq h c hnd)
      (fun y hy z hz => qNext_mem_ring h c hnd hy hz)
      (c.length + 1) h (List.mem_cons_self h c)]
    exact walk_ring_next h c hnd
  · rw [walk_congr (sortPrevMap h p0 c) (qPrev h c) (h :: c)
      (sortPrevMap_eq h c hnd p0)
      (fun y hy z hz => qPrev_mem_ring h c hnd hy hz)
      (c.length + 1) h (List.mem_cons_self h c)]
    exact walk_ring_prev h c hnd

/-- The conclusion of the invariant-preservation claim for a ready queue
with sentinel address `h` and element list `l`: after each public
operation the circular doubly-linked invariant holds for the remaining
elements, and for `q_sort` the literally rebuilt `next`/`prev` maps agree
with the canonical ones and satisfy the invariant. -/
def C2Body (h : Nat) (l : List Elem) : Prop :=
  (∀ (nid : Nat) (s : CStr), nid ∉ h :: ids l →
    (∀ (aN aS : Bool) (st : List Elem),
      (q_insert_head (some l) aN aS nid s).1 = some st → InvHolds h (ids st)) ∧
    (∀ (aN aS : Bool) (st : List Elem),
      (q_insert_tail (some l) aN aS nid s).1 = some st → InvHolds h (ids st))) ∧
  (∀ (sp : Bool) (b : Nat) (res : RemRes),
    q_remove_head (some l) sp b = some res → InvHolds h (ids res.rest)) ∧
  (∀ (sp : Bool) (b : Nat) (res : RemRes),
    q_remove_tail (some l) sp b = some res → InvHolds h (ids res.rest)) ∧
  (q_size (some l) = l.length ∧ InvHolds h (ids l)) ∧
  (∀ st : List Elem, (q_delete_mid (some l)).1 = some st → InvHolds h (ids st)) ∧
  (∀ st : List Elem, (q_delete_dup (some l)).1 = some st → InvHolds h (ids st)) ∧
  (∀ st : List Elem, q_swap (some l) = some st → InvHolds h (ids st)) ∧
  (∀ st : List Elem, q_reverse (some l) = some st → InvHolds h (ids st)) ∧
  (∀ st : List Elem, q_sort (some l) = some st → InvHolds h (ids st)) ∧
  (∀ (p0 : Nat → Ptr) (st : List Elem), q_sort (some l) = some st →
    (∀ x ∈ h :: ids st, sortNextMap h (ids st) x = qNext h (ids st) x ∧
       sortPrevMap h p0 (ids st) x = qPrev h (ids st) x) ∧
    (∀ x ∈ h :: ids st, ∃ y, sortNextMap h (ids st) x = some y ∧
       sortPrevMap h p0 (ids st) y = some x) ∧
    (∀ x ∈ h :: ids st, ∃ z, sortPrevMap h p0 (ids st) x = some z ∧
       sortNextMap h (ids st) z = some x) ∧
    walk (sortNextMap h (ids st)) ((ids st).length + 1) h = some h ∧
    walk (sortPrevMap h p0 (ids st)) ((ids st).length + 1) h = some h)

theorem c2Body_holds (h : Nat) (l : List Elem) (hnd : ValidQ h l) : C2Body h l := by
  have hInv : InvHolds h (ids l) := invHolds_of_nodup h (ids l) hnd
  have hInvOf : ∀ r : List Elem, ValidQ h r → InvHolds h (ids r) :=
    fun r hr => invHolds_of_nodup h (ids r) hr
  rcases List.nodup_cons.1 hnd with ⟨hm, hc⟩
  refine ⟨?_, ?_, ?_, ⟨rfl, hInv⟩, ?_, ?_, ?_, ?_, ?_, ?_⟩
  · -- inserts
    intro nid s hnew
    have hvalid : ValidQ h (⟨nid, s⟩ :: l) := by
      refine List.nodup_cons.2 ⟨?_, List.nodup_cons.2 ⟨?_, hc⟩⟩
      · intro hmem
        rcases List.mem_cons.1 hmem with hcase | hcase
        · exact hnew (hcase ▸ List.mem_cons_self h (ids l))
        · exact hm hcase
      · exact fun hmem => hnew (List.mem_cons_of_mem h hmem)
    constructor
    · intro aN aS st hst
      cases aN <;> cases aS <;> simp [q_insert_head] at hst <;> subst hst
      · exact hInv
      · exact hInv
      · exact hInv
      · exact hInvOf _ hvalid
    · intro aN aS st hst
      cases aN <;> cases aS <;> simp [q_insert_tail] at hst <;> subst hst
      · exact hInv
      · exact hInv
      · exact hInv
      · exact hInvOf _ (validq_of_perm h hvalid (List.perm_append_singleton _ l))
  · -- remove_head
    intro sp b res hres
    cases l with
    | nil => simp [q_remove_head] at hres
    | cons e rest =>
      have he : q_remove_head (some (e :: rest)) sp b = some ⟨e, rest, _⟩ := rfl
      rw [he] at hres
      cases hres
      exact hInvOf _ (validq_of_sublist h hnd (List.sublist_cons_self e rest))
  · -- remove_tail
    intro sp b res hres
    cases l with
    | nil => simp [q_remove_tail] at hres
    | cons e rest =>
      have he : q_remove_tail (some (e :: rest)) sp b =
          some ⟨(e :: rest).getLast (by simp), (e :: rest).dropLast, _⟩ := rfl
      rw [he] at hres
      cases hres
      exact hInvOf _ (validq_of_sublist h hnd (List.dropLast_sublist (e :: rest)))
  · -- delete_mid
    intro st hst
    cases l with
    | nil =>
      have he : (q_delete_mid (some ([] : List Elem))).1 = some [] := rfl
      rw [he] at hst
      cases hst
      exact hInv
    | cons e rest =>
      have he : (q_delete_mid (some (e :: rest))).1 =
          some ((e :: rest).eraseIdx (midIndex (e :: rest) 0)) := rfl
      rw [he] at hst
      cases hst
      exact hInvOf _ (validq_of_sublist h hnd (List.eraseIdx_sublist _ _))
  · -- delete_dup
    intro st hst
    rw [q_delete_dup_eq l] at hst
    cases hst
    exact hInvOf _ (validq_of_sublist h hnd (dedupRunsSpec_sublist_self l))
  · -- swap
    intro st hst
    have he : q_swap (some l) =
        if l.length ≤ 1 then some l else some (swapGo l) := rfl
    rw [he] at hst
    split at hst
    · cases hst
      exact hInv
    · cases hst
      exact hInvOf _ (validq_of_perm h hnd (swapGo_perm l))
  · -- reverse
    intro st hst
    rw [q_reverse_some l] at hst
    cases hst
    exact hInvOf _ (validq_of_perm h hnd (List.reverse_perm l))
  · -- sort
    intro st hst
    have he : q_sort (some l) = some (q_sortL l) := rfl
    rw [he] at hst
    cases hst
    exact hInvOf _ (validq_of_perm h hnd (q_sortL_perm l))
  · -- sort, literal relink maps
    intro p0 st hst
    have he : q_sort (some l) = some (q_sortL l) := rfl
    rw [he] at hst
    cases hst
    have hvalid : ValidQ h (q_sortL l) := validq_of_perm h hnd (q_sortL_perm l)
    exact sortMaps_ok h (ids (q_sortL l)) hvalid p0

theorem strncpyWrites_offset_lt (v : CStr) (n : Nat) :
    ∀ w ∈ strncpyWrites v n, w.1 < n := by
  intro w hw
  rcases List.mem_map.1 hw with ⟨i, hi, hwi⟩
  rw [← hwi]
  exact List.mem_range.1 hi

theorem sizeSub1_eq (b : Nat) (hb : 1 ≤ b) (hb2 : b < 2 ^ 64) :
    sizeSub1 b = b - 1 := by
  unfold sizeSub1
  omega

theorem sizeSub1_zero : sizeSub1 0 = 2 ^ 64 - 1 := by
  unfold sizeSub1
  omega

/-- C1: for every ready queue, `q_sort` rearranges the existing elements
into an order that is non-decreasing by `strcmp`, and the result is a
permutation of the input elements (same nodes with the same strings: no
element or string is allocated or freed, only links are rewritten);
this holds for all inputs.  A NULL handle is untouched. -/
theorem q_sort_sorted_perm (l : List Elem) :
    List.Perm (q_sortL l) l ∧ (q_sortL l).Sorted sle ∧
    q_sort (some l) = some (q_sortL l) ∧ q_sort none = none :=
  ⟨q_sortL_perm l, q_sortL_sorted l, rfl, rfl⟩

/-- C2: every public operation preserves the circular doubly-linked
invariant: starting from a valid ready queue (pairwise distinct node
addresses), after each operation every remaining node `n` satisfies
`n.next.prev = n` and `n.prev.next = n`, and walking forward (or
backward) for `size` steps and then once more returns exactly to the
sentinel; in particular the `next`/`prev` maps literally rebuilt by
`q_sort`'s relink loop agree with the canonical circular maps and satisfy
the full invariant. -/
theorem q_ops_preserve_dll_invariant (h : Nat) (l : List Elem) (hnd : ValidQ h l) :
    C2Body h l :=
  c2Body_holds h l hnd

/-- Witness for C2 at a concrete queue. -/
theorem q_ops_preserve_dll_invariant_witness :
    C2Body 0 [⟨1, [98]⟩, ⟨2, [97]⟩] :=
  q_ops_preserve_dll_invariant 0 [⟨1, [98]⟩, ⟨2, [97]⟩]
    (show ((0 : Nat) :: ids [⟨1, [98]⟩, ⟨2, [97]⟩]).Nodup by decide)

/-- C3 counterexample: the sort is not stable.  On the two-element queue
whose distinct nodes 0 and 1 both hold the string "a", `q_sort` returns
the nodes in the order 1, 0 — the relative order of the two equal
elements is reversed, because the merge takes the second chain's element
on a tie. -/
theorem q_sort_not_stable :
    q_sortL [⟨0, [97]⟩, ⟨1, [97]⟩] = [⟨1, [97]⟩, ⟨0, [97]⟩] ∧
    (⟨0, [97]⟩ : Elem).value = (⟨1, [97]⟩ : Elem).value := by
  constructor
  · rw [q_sortL]
    rw [if_neg (by simp)]
    rw [mergesortL]
    have hsc : splitCount [⟨0, [97]⟩, ⟨1, [97]⟩] 0 = 1 := rfl
    rw [hsc]
    rw [show ([⟨0, [97]⟩, ⟨1, [97]⟩] : List Elem).take 1 = [⟨0, [97]⟩] from rfl]
    rw [show ([⟨0, [97]⟩, ⟨1, [97]⟩] : List Elem).drop 1 = [⟨1, [97]⟩] from rfl]
    rw [mergesortL, mergesortL]
    rw [mergeTwoLists]
    rw [if_neg (by rw [show strcmp [(97 : ℕ+)] [(97 : ℕ+)] = 0 from rfl]; omega)]
    rw [mergeTwoLists]
  · rfl

/-- C3 amended: `q_sort` sorts ascending by `strcmp` (a permutation of
the input), but it is not stable: on a tie the merge emits the element of
the second chain first, so two equal-valued elements split across the two
halves come out in reversed relative order — e.g. for any equal-valued
`a`, `b`, sorting the queue `[a, b]` yields `[b, a]`. -/
theorem q_sort_tie_takes_second (a b : Elem) (s t : List Elem)
    (h : strcmp a.value b.value = 0) :
    mergeTwoLists (a :: s) (b :: t) = b :: mergeTwoLists (a :: s) t ∧
    q_sortL [a, b] = [b, a] := by
  constructor
  · rw [mergeTwoLists, if_neg (by omega)]
  · rw [q_sortL]
    rw [if_neg (by simp)]
    rw [mergesortL]
    have hsc : splitCount [a, b] 0 = 1 := rfl
    rw [hsc]
    rw [show ([a, b] : List Elem).take 1 = [a] from rfl]
    rw [show ([a, b] : List Elem).drop 1 = [b] from rfl]
    rw [mergesortL, mergesortL]
    rw [mergeTwoLists, if_neg (by omega)]
    rw [mergeTwoLists]

/-- Witness for the amended C3 at concrete equal-valued elements. -/
theorem q_sort_tie_takes_second_witness :
    mergeTwoLists [⟨3, [97]⟩] [⟨4, [97]⟩] = ⟨4, [97]⟩ :: mergeTwoLists [⟨3, [97]⟩] [] ∧
    q_sortL [⟨3, [97]⟩, ⟨4, [97]⟩] = [⟨4, [97]⟩, ⟨3, [97]⟩] :=
  q_sort_tie_takes_second ⟨3, [97]⟩ ⟨4, [97]⟩ [] [] (by decide)

/-- C4: on a non-empty ready queue `q_delete_mid` unlinks and releases
exactly the element at zero-based index `⌊n/2⌋` (the fast/slow loop stops
with `slow` there), leaves the other elements in their original relative
order, and returns true; on a NULL handle or an empty queue it returns
false and changes nothing. -/
theorem q_delete_mid_spec :
    (∀ (e : Elem) (r : List Elem),
      q_delete_mid (some (e :: r)) =
        (some ((e :: r).eraseIdx ((e :: r).length / 2)), true)) ∧
    q_delete_mid (some []) = (some [], false) ∧
    q_delete_mid none = (none, false) := by
  refine ⟨?_, rfl, rfl⟩
  intro e r
  have he : q_delete_mid (some (e :: r)) =
      (some ((e :: r).eraseIdx (midIndex (e :: r) 0)), true) := rfl
  rw [he, midIndex_eq]
  rw [Nat.zero_add]

/-- C5 counterexample: on the six-element queue of strings "a".."f",
the fast/slow loop of `q_delete_mid` stops at zero-based index
3 = ⌊6/2⌋, so the code removes "d" and not "c" (index 2) as the claim
states: the result keeps "c" and lacks "d". -/
theorem q_delete_mid_example_not_c :
    q_delete_mid (some [⟨0, [97]⟩, ⟨1, [98]⟩, ⟨2, [99]⟩,
        ⟨3, [100]⟩, ⟨4, [101]⟩, ⟨5, [102]⟩]) =
      (some [⟨0, [97]⟩, ⟨1, [98]⟩, ⟨2, [99]⟩, ⟨4, [101]⟩, ⟨5, [102]⟩], true) ∧
    ¬ (q_delete_mid (some [⟨0, [97]⟩, ⟨1, [98]⟩, ⟨2, [99]⟩,
        ⟨3, [100]⟩, ⟨4, [101]⟩, ⟨5, [102]⟩]) =
      (some [⟨0, [97]⟩, ⟨1, [98]⟩, ⟨3, [100]⟩, ⟨4, [101]⟩, ⟨5, [102]⟩], true)) := by
  constructor
  · decide
  · decide

/-- C5 amended: on the six-element queue of strings "a".."f",
`q_delete_mid` removes the element "d" (zero-based index 3 = ⌊6/2⌋),
leaving ["a","b","c","e","f"]. -/
theorem q_delete_mid_example :
    q_delete_mid (some [⟨0, [97]⟩, ⟨1, [98]⟩, ⟨2, [99]⟩,
        ⟨3, [100]⟩, ⟨4, [101]⟩, ⟨5, [102]⟩]) =
      (some [⟨0, [97]⟩, ⟨1, [98]⟩, ⟨2, [99]⟩, ⟨4, [101]⟩, ⟨5, [102]⟩], true) := by
  decide

/-- C6: on a queue sorted ascending by `strcmp`, `q_delete_dup` keeps
exactly the elements whose string occurs once (deleting every element
with an equal neighbor), leaving a strictly ascending sequence, and
returns true; it returns true without mutation on an empty or singleton
queue and false only on a NULL handle. -/
theorem q_delete_dup_sorted_spec :
    (∀ l : List Elem, l.Sorted sle →
      q_delete_dup (some l) = (some (l.filter (uniqIn l)), true) ∧
      (l.filter (uniqIn l)).Sorted slt) ∧
    (∀ l : List Elem, l.length ≤ 1 → q_delete_dup (some l) = (some l, true)) ∧
    q_delete_dup none = (none, false) := by
  refine ⟨?_, ?_, rfl⟩
  · intro l hs
    have hfe := dedupRunsSpec_eq_filter_self l hs
    constructor
    · rw [q_delete_dup_eq l, hfe]
    · rw [← hfe]
      exact dedupRunsSpec_sorted_slt l.length l le_rfl hs
  · intro l hl
    have he : q_delete_dup (some l) =
        if l.length ≤ 1 then (some l, true) else (some (delDupGo false l), true) := rfl
    rw [he, if_pos hl]

/-- Witness for C6 on the sorted queue ["a","b","b","b","c"], which
dedups to ["a","c"]. -/
theorem q_delete_dup_sorted_spec_witness :
    q_delete_dup (some [⟨0, [97]⟩, ⟨1, [98]⟩, ⟨2, [98]⟩, ⟨3, [98]⟩, ⟨4, [99]⟩]) =
      (some ([⟨0, [97]⟩, ⟨1, [98]⟩, ⟨2, [98]⟩, ⟨3, [98]⟩, ⟨4, [99]⟩].filter
        (uniqIn [⟨0, [97]⟩, ⟨1, [98]⟩, ⟨2, [98]⟩, ⟨3, [98]⟩, ⟨4, [99]⟩])), true) ∧
    ([⟨0, [97]⟩, ⟨1, [98]⟩, ⟨2, [98]⟩, ⟨3, [98]⟩, ⟨4, [99]⟩].filter
        (uniqIn [⟨0, [97]⟩, ⟨1, [98]⟩, ⟨2, [98]⟩, ⟨3, [98]⟩, ⟨4, [99]⟩])) =
      [⟨0, [97]⟩, ⟨4, [99]⟩] :=
  ⟨(q_delete_dup_sorted_spec.1 _ (by decide)).1, by decide⟩

/-- C7 counterexample: with `bufsize = 0` the `size_t` expression
`bufsize - 1` wraps around to `2^64 - 1`, and the terminator store
`sp[bufsize - 1] = 0` lands at offset `2^64 - 1`, which is at-or-beyond
offset `bufsize = 0` — the claimed bound fails. -/
theorem q_remove_head_bufzero_overflow :
    ∃ res : RemRes, q_remove_head (some [⟨0, [97]⟩]) true 0 = some res ∧
      (2 ^ 64 - 1, 0) ∈ res.writes ∧ ¬ ((2 ^ 64 - 1 : Nat) < 0) := by
  refine ⟨⟨⟨0, [97]⟩, [],
    strncpyWrites [97] (sizeSub1 0) ++ [(sizeSub1 0, 0)]⟩, rfl, ?_, by omega⟩
  rw [sizeSub1_zero]
  exact List.mem_append_right _ (List.mem_singleton.2 rfl)

/-- C7 amended: for every non-empty queue, a given output buffer, and
every capacity `1 ≤ bufsize < 2^64`, `q_remove_head` and `q_remove_tail`
write exactly the `strncpy` of at most `bufsize - 1` bytes of the removed
element's string (with NUL padding) followed by a NUL terminator at
offset `bufsize - 1`, and every written offset is strictly below
`bufsize`; at `bufsize = 0` the unsigned wrap-around instead makes the
code write at offset `2^64 - 1`. -/
theorem q_remove_buffer_safe (l : List Elem) (b : Nat)
    (hb : 1 ≤ b) (hb2 : b < 2 ^ 64) :
    (∀ res : RemRes, q_remove_head (some l) true b = some res →
       res.writes = strncpyWrites res.elem.value (b - 1) ++ [(b - 1, 0)] ∧
       ∀ w ∈ res.writes, w.1 < b) ∧
    (∀ res : RemRes, q_remove_tail (some l) true b = some res →
       res.writes = strncpyWrites res.elem.value (b - 1) ++ [(b - 1, 0)] ∧
       ∀ w ∈ res.writes, w.1 < b) := by
  have hs1 : sizeSub1 b = b - 1 := sizeSub1_eq b hb hb2
  have hbound : ∀ v : CStr,
      ∀ w ∈ strncpyWrites v (b - 1) ++ [(b - 1, 0)], w.1 < b := by
    intro v w hw
    rcases List.mem_append.1 hw with hw | hw
    · have := strncpyWrites_offset_lt v (b - 1) w hw
      omega
    · rw [List.mem_singleton.1 hw]
      omega
  constructor
  · intro res hres
    cases l with
    | nil => simp [q_remove_head] at hres
    | cons e rest =>
      have he : q_remove_head (some (e :: rest)) true b =
          some ⟨e, rest, strncpyWrites e.value (sizeSub1 b) ++ [(sizeSub1 b, 0)]⟩ := by
        rw [q_remove_head]
        rw [if_pos rfl]
      rw [he] at hres
      cases hres
      rw [hs1]
      exact ⟨rfl, hbound e.value⟩
  · intro res hres
    cases l with
    | nil => simp [q_remove_tail] at hres
    | cons e rest =>
      have he : q_remove_tail (some (e :: rest)) true b =
          some ⟨(e :: rest).getLast (by simp), (e :: rest).dropLast,
            strncpyWrites ((e :: rest).getLast (by simp)).value (sizeSub1 b)
              ++ [(sizeSub1 b, 0)]⟩ := by
        rw [q_remove_tail]
        rw [if_pos rfl]
      rw [he] at hres
      cases hres
      rw [hs1]
      exact ⟨rfl, hbound _⟩

/-- Witness for the amended C7 at a concrete queue and capacity 2. -/
theorem q_remove_buffer_safe_witness :
    (⟨⟨0, [97]⟩, ([] : List Elem),
        strncpyWrites [97] (sizeSub1 2) ++ [(sizeSub1 2, 0)]⟩ : RemRes).writes =
      strncpyWrites [97] (2 - 1) ++ [(2 - 1, 0)] ∧
    ∀ w ∈ (⟨⟨0, [97]⟩, ([] : List Elem),
        strncpyWrites [97] (sizeSub1 2) ++ [(sizeSub1 2, 0)]⟩ : RemRes).writes,
      w.1 < 2 :=
  (q_remove_buffer_safe [⟨0, [97]⟩] 2 (by omega) (by norm_num)).1
    ⟨⟨0, [97]⟩, [], strncpyWrites [97] (sizeSub1 2) ++ [(sizeSub1 2, 0)]⟩ rfl

/-- C8: whenever `q_insert_head` or `q_insert_tail` returns false (NULL
handle, node allocation failure, or string duplication failure), the
queue state is exactly what it was before the call: no partially
constructed node is linked. -/
theorem q_insert_fail_no_mutation (q : Option (List Elem)) (aN aS : Bool)
    (nid : Nat) (s : CStr) :
    ((q_insert_head q aN aS nid s).2 = false → (q_insert_head q aN aS nid s).1 = q) ∧
    ((q_insert_tail q aN aS nid s).2 = false → (q_insert_tail q aN aS nid s).1 = q) := by
  cases q with
  | none => exact ⟨fun _ => rfl, fun _ => rfl⟩
  | some l =>
    cases aN with
    | false => exact ⟨fun _ => rfl, fun _ => rfl⟩
    | true =>
      cases aS with
      | false => exact ⟨fun _ => rfl, fun _ => rfl⟩
      | true =>
        constructor
        · intro hfalse
          exact absurd hfalse (by simp [q_insert_head])
        · intro hfalse
          exact absurd hfalse (by simp [q_insert_tail])

/-- Witness for C8: a failing insert (node allocation failure) on a
concrete queue leaves it unchanged. -/
theorem q_insert_fail_no_mutation_witness :
    (q_insert_head (some [⟨0, [97]⟩]) false true 5 [98]).1 = some [⟨0, [97]⟩] :=
  (q_insert_fail_no_mutation (some [⟨0, [97]⟩]) false true 5 [98]).1 rfl

/-- C9: `q_reverse` reverses the element order of every ready queue in
place (the result is the reversal of the same elements — nothing is
allocated or freed), and it is an involution: applying it twice restores
the original queue.  A NULL handle is untouched. -/
theorem q_reverse_involution (l : List Elem) :
    q_reverse (some l) = some l.reverse ∧
    q_reverse (q_reverse (some l)) = some l ∧
    List.Perm l.reverse l ∧
    q_reverse none = none := by
  refine ⟨q_reverse_some l, ?_, List.reverse_perm l, rfl⟩
  rw [q_reverse_some l, q_reverse_some l.reverse, List.reverse_reverse]

/-- C10: for every non-NULL queue, sorted or not, `q_delete_dup` returns
true and deletes exactly the elements lying in a maximal run of two or
more consecutive equal strings (each node is compared only with its
original immediate successor in a single forward pass), keeping every
element with no equal immediate neighbor — as captured by
`dedupRunsSpec`; equal elements that are not adjacent survive. -/
theorem q_delete_dup_runs (l : List Elem) :
    q_delete_dup (some l) = (some (dedupRunsSpec l), true) ∧
    q_delete_dup none = (none, false) ∧
    dedupRunsSpec [⟨0, [97]⟩, ⟨1, [97]⟩, ⟨2, [98]⟩, ⟨3, [97]⟩] =
      [⟨2, [98]⟩, ⟨3, [97]⟩] :=
  ⟨q_delete_dup_eq l, rfl, by rw [← delDupGo_false_eq_spec]; decide⟩
